import Mathlib

/-!
Verification of the geecache distributed in-memory cache library.

This file gives a shallow embedding, translated from the Go sources, of
* the TTL-aware LRU engine (`geecache/lru/lru.go`, the variant whose entries
  carry an `expire` timestamp),
* the consistent-hash ring (`geecache/consistenthash/consistenthash.go`),
* the cache group, key statistics and hot-cache promotion
  (`geecache/geecache.go`, `geecache/cache.go`, `geecache/byteview.go`),
and proves the behavioural properties claimed for them.

Modelling conventions:
* `time.Time` and `time.Duration` are modelled as `Int` numbers of seconds
  (the code compares times with `Before`, i.e. strict `<`, and converts to
  seconds with `Unix()`).
* `rand.Intn(60)` (the TTL jitter) is made an explicit `jitter` parameter.
* Each operation runs at a single instant `now`: the handful of calls to
  `time.Now()` inside one operation are modelled as returning the same value.
* Go byte slices are modelled as `List Nat`; copying an immutable list is the
  identity, which is how `cloneBytes` is embedded.
* Go `int64` arithmetic is modelled on `Int` (no intermediate value in these
  functions can approach 2^63); `uint32` hash values are reduced `% 2^32`.
* A possibly non-terminating loop is embedded with explicit fuel; the result
  type `Option` uses `none` for "the loop never terminates".
-/

namespace Geecache

/-- The `lru.Value` interface: a value exposes its size in bytes via `Len`. -/
class LruValue (V : Type) where
  vlen : V → Nat

/-- An LRU list node (`lru.entry`): key, value and expiry instant. -/
structure Entry (V : Type) where
  key : String
  value : V
  expire : Int
deriving DecidableEq

/-- Bytes charged to an entry: `len(key) + value.Len()`. -/
def entrySize {V : Type} [LruValue V] (e : Entry V) : Int :=
  (e.key.length : Int) + (LruValue.vlen e.value : Int)

/-- The `lru.Cache` structure.  The doubly linked recency list `ll` is
represented with its front (= most recently used) first.  The `cache`
key-to-element map always contains exactly the nodes of `ll` (the bijection
invariant of the source), so it is represented by `ll` itself.  The optional
`OnEvicted` hook is omitted: every cache constructed by the group passes
`nil` for it, and no claim mentions it. -/
structure Cache (V : Type) where
  maxBytes : Int
  nbytes : Int
  ll : List (Entry V)
  defaultTTL : Int
deriving DecidableEq

/-- `lru.New(maxbytes, onEvicted, defaultTTL)`: empty cache. -/
def Cache.new {V : Type} (maxBytes ttl : Int) : Cache V :=
  { maxBytes := maxBytes, nbytes := 0, ll := [], defaultTTL := ttl }

/-- The map lookup `c.cache[key]`: the node stored under `key`. -/
def keyMatch {V : Type} (k : String) : Entry V → Bool := fun e => e.key == k

/-- The node registered for `k` (contents of the `cache` map). -/
def Cache.lookup {V : Type} (c : Cache V) (k : String) : Option (Entry V) :=
  c.ll.find? (keyMatch k)

/-- `RemoveElement` applied to the node registered for `k`: unlink it from
the list, delete the map entry, and give back its bytes. -/
def Cache.removeKey {V : Type} [LruValue V] (c : Cache V) (k : String) : Cache V :=
  match c.ll.find? (keyMatch k) with
  | some e =>
      { c with ll := c.ll.eraseP (keyMatch k), nbytes := c.nbytes - entrySize e }
  | none => c

/-- `lru.Cache.Get`: if the key is present and not expired, move the node to
the front and return its value; if present but expired, remove it and report
a miss; if absent, report a miss. -/
def Cache.get {V : Type} [LruValue V] (c : Cache V) (k : String) (now : Int) :
    Option V × Cache V :=
  match c.ll.find? (keyMatch k) with
  | some e =>
      if e.expire < now then
        (none, c.removeKey k)
      else
        (some e.value, { c with ll := e :: c.ll.eraseP (keyMatch k) })
  | none => (none, c)

/-- The test `kv.expire.Before(time.Now())`. -/
def expiredB {V : Type} (now : Int) : Entry V → Bool := fun e => decide (e.expire < now)

/-- `lru.Cache.RemoveOldest` (TTL variant): walk the list from the back and
remove the first expired node; if no node is expired, do nothing. -/
def Cache.removeOldest {V : Type} [LruValue V] (c : Cache V) (now : Int) : Cache V :=
  match c.ll.reverse.find? (expiredB now) with
  | some e =>
      { c with ll := (c.ll.reverse.eraseP (expiredB now)).reverse,
               nbytes := c.nbytes - entrySize e }
  | none => c

/-- The eviction loop at the end of `Add`:
`for c.maxBytes != 0 && c.maxBytes < c.nbytes { c.RemoveOldest() }`.
Each iteration removes at most one node, so `fuel` (called with the list
length) bounds every terminating run; an iteration that removes nothing
leaves the state unchanged and the loop spins forever, which is reported as
`none`. -/
def Cache.evictLoop {V : Type} [LruValue V] (now : Int) :
    Nat → Cache V → Option (Cache V)
  | 0, c => if c.maxBytes ≠ 0 ∧ c.maxBytes < c.nbytes then none else some c
  | fuel + 1, c =>
      if c.maxBytes ≠ 0 ∧ c.maxBytes < c.nbytes then
        if (c.removeOldest now).ll.length < c.ll.length then
          Cache.evictLoop now fuel (c.removeOldest now)
        else none
      else some c

/-- `lru.Cache.Add` (TTL variant).  The expiry is
`time.Now().Add(ttl + rand.Intn(60) seconds)`; on update the later of the
old and new expiry is kept and `nbytes` is adjusted by the value-size delta;
on insert the node is pushed to the front; then the eviction loop runs. -/
def Cache.add {V : Type} [LruValue V] (c : Cache V) (k : String) (v : V)
    (ttl now jitter : Int) : Option (Cache V) :=
  let expireTime := now + ttl + jitter
  let c1 : Cache V :=
    match c.ll.find? (keyMatch k) with
    | some e =>
        let e2 : Entry V :=
          { e with value := v,
                   expire := if e.expire < expireTime then expireTime else e.expire }
        { c with ll := e2 :: c.ll.eraseP (keyMatch k),
                 nbytes := c.nbytes + ((LruValue.vlen v : Int) - (LruValue.vlen e.value : Int)) }
    | none =>
        { c with ll := { key := k, value := v, expire := expireTime } :: c.ll,
                 nbytes := c.nbytes + ((k.length : Int) + (LruValue.vlen v : Int)) }
  Cache.evictLoop now c1.ll.length c1

/-- `lru.Cache.Len`: the number of entries. -/
def Cache.len {V : Type} (c : Cache V) : Nat := c.ll.length

/-- Sum of `len(key) + value.Len()` over a node list. -/
def sumSize {V : Type} [LruValue V] (l : List (Entry V)) : Int :=
  (l.map entrySize).sum

/-- The byte-accounting invariant of the spec:
`used_bytes = Σ entries (len(key) + value.Len())`. -/
def WFbytes {V : Type} [LruValue V] (c : Cache V) : Prop :=
  c.nbytes = sumSize c.ll

/-- One observable LRU operation together with its call arguments. -/
inductive LruOp (V : Type) where
  | get (k : String) (now : Int)
  | add (k : String) (v : V) (ttl now jitter : Int)
  | removeOldest (now : Int)

/-- Run one operation; `none` when `Add`'s eviction loop does not terminate. -/
def runOp {V : Type} [LruValue V] (c : Cache V) : LruOp V → Option (Cache V)
  | .get k now => some (c.get k now).2
  | .add k v ttl now jitter => c.add k v ttl now jitter
  | .removeOldest now => some (c.removeOldest now)

/-- Run a sequence of operations from a starting cache. -/
def runOps {V : Type} [LruValue V] (c : Cache V) : List (LruOp V) → Option (Cache V)
  | [] => some c
  | op :: ops =>
      match runOp c op with
      | some c2 => runOps c2 ops
      | none => none

/-- `ByteView`: an immutable byte sequence. -/
structure ByteView where
  b : List Nat
deriving DecidableEq

/-- `ByteView.Len`. -/
def ByteView.Len (v : ByteView) : Nat := v.b.length

instance : LruValue ByteView := ⟨ByteView.Len⟩

/-- `cloneBytes`: a defensive copy; on immutable lists this is the identity. -/
def cloneBytes (b : List Nat) : List Nat := b

/-- The concurrent cache shell (`geecache.cache`): a lazily initialised LRU
behind a mutex.  The mutex serialises operations; here each operation is a
whole-state function, so only the lazy initialisation is visible. -/
structure GCache where
  lru : Option (Cache ByteView)
  cacheBytes : Int
  ttl : Int
deriving DecidableEq

/-- `cache.add`: initialise the LRU on first use
(`lru.New(c.cacheBytes, nil, c.ttl)`), then `lru.Add(key, value, c.ttl)`. -/
def GCache.add (c : GCache) (k : String) (v : ByteView) (now jitter : Int) :
    Option GCache :=
  let base : Cache ByteView :=
    match c.lru with
    | none => Cache.new c.cacheBytes c.ttl
    | some l => l
  (base.add k v c.ttl now jitter).map (fun l2 => { c with lru := some l2 })

/-- `cache.get`: miss on an uninitialised LRU, otherwise `lru.Get`. -/
def GCache.get (c : GCache) (k : String) (now : Int) : Option ByteView × GCache :=
  match c.lru with
  | none => (none, c)
  | some l =>
      let r := l.get k now
      (r.1, { c with lru := some r.2 })

/-- Read-only specification view: the value currently stored under `k`
(ignoring expiry), i.e. the contents of the entry the key map points at. -/
def GCache.peek (c : GCache) (k : String) : Option ByteView :=
  match c.lru with
  | none => none
  | some l => (l.ll.find? (keyMatch k)).map (fun e => e.value)

/-- `KeyStats`: first observation time and atomic remote-fetch counter. -/
structure KeyStats where
  firstGetTime : Int
  remoteCnt : Int
deriving DecidableEq

/-- `defaultHotCacheRatio`. -/
def defaultHotCacheRatio : Int := 8

/-- `defaultMaxMinuteRemoteQPS`. -/
def defaultMaxMinuteRemoteQPS : Int := 10

/-- `math.Round(float64(d) / 60)`: the elapsed seconds `d` divided by 60 and
rounded to the nearest integer, halves away from zero.  For `|d| < 2^45` the
`float64` computation in the source is exact enough that it agrees with this
integer formula (the quotient is within one ulp of the real value, and ties
`d = 60k ± 30` are hit exactly). -/
def goRoundMinutes (d : Int) : Int :=
  if 0 ≤ d then (d + 30).ediv 60 else -((30 - d).ediv 60)

/-- The `Getter` interface: `Get(key) -> ([]byte, error)`. -/
def Getter : Type := String → Except String (List Nat)

/-- The `PeerGetter` interface: `Get(req, res) -> error` with
`req = {group, key}` and `res.value` the returned bytes. -/
def PeerGetter : Type := String → String → Except String (List Nat)

/-- The `PeerPicker` interface: `PickPeer(key) -> (peer, ok)`;
`none` is `ok == false` ("the owner is me" / no peers). -/
def PeerPicker : Type := String → Option PeerGetter

/-- A cache `Group`: namespace name, loader, main and hot caches, the
optional peer picker, and the per-key statistics map (`g.keys`).  The
`singleflight.Group` loader field carries no state between completed calls;
in this sequential embedding `Do(key, fn)` finds no in-flight call, so it
executes `fn` once and returns its result (see `Group.load`). -/
structure Group where
  name : String
  getter : Getter
  mainCache : GCache
  hotCache : GCache
  peers : Option PeerPicker
  keys : List (String × KeyStats)

/-- The global registry `groups` (a `name -> *Group` map under `mu`),
represented as an association list where the most recent insertion for a
name is found first — Go's `groups[name] = g` overwrite semantics. -/
def GroupRegistry : Type := List (String × Group)

/-- The group value built by `NewGroup`: hot-cache budget
`cacheBytes / defaultHotCacheRatio` (int64 division), lazily initialised
caches with a zero `ttl` field (Go's zero value), no peers, empty stats. -/
def mkGroup (name : String) (cacheBytes : Int) (gf : Getter) : Group :=
  { name := name
    getter := gf
    mainCache := { lru := none, cacheBytes := cacheBytes, ttl := 0 }
    hotCache := { lru := none,
                  cacheBytes := cacheBytes.tdiv defaultHotCacheRatio, ttl := 0 }
    peers := none
    keys := [] }

/-- `NewGroup(name, cacheBytes, getter)`.  A `nil` getter panics (modelled
as `Except.error`); otherwise the group is built and stored under `name`
with `groups[name] = g`, overwriting any previous registration. -/
def NewGroup (name : String) (cacheBytes : Int) (getter : Option Getter)
    (groups : GroupRegistry) : Except String GroupRegistry :=
  match getter with
  | none => .error "nil Getter"
  | some gf => .ok ((name, mkGroup name cacheBytes gf) :: groups)

/-- `GetGroup(name)`: registry lookup. -/
def GetGroup (groups : GroupRegistry) (name : String) : Option Group :=
  (groups.find? (fun p => p.1 == name)).map (fun p => p.2)

/-- In-place `stat.remoteCnt.Add(1)` on the stats entry for `k`. -/
def bumpStats (l : List (String × KeyStats)) (k : String) :
    List (String × KeyStats) :=
  match l with
  | [] => []
  | e :: t =>
      if e.1 == k then (e.1, ⟨e.2.firstGetTime, e.2.remoteCnt + 1⟩) :: t
      else e :: bumpStats t k

/-- `populateHotCache`: add a value to the hot cache. -/
def Group.populateHotCache (g : Group) (key : String) (v : ByteView)
    (now jitter : Int) : Option Group :=
  (g.hotCache.add key v now jitter).map (fun hc => { g with hotCache := hc })

/-- `populateCache`: add a value to the main cache. -/
def Group.populateCache (g : Group) (key : String) (v : ByteView)
    (now jitter : Int) : Option Group :=
  (g.mainCache.add key v now jitter).map (fun mc => { g with mainCache := mc })

/-- `Group.updateKeyStats`.  On a first observation of `key`, insert
`KeyStats{firstGetTime: now, remoteCnt: 1}`.  Otherwise increment the
counter, compute `qps = cnt / max(1, round((now-firstSeen)/60))` (int64
division truncates toward zero), and when `qps >= defaultMaxMinuteRemoteQPS`
add the value to the hot cache and delete the stats entry. -/
def Group.updateKeyStats (g : Group) (key : String) (v : ByteView)
    (now jitter : Int) : Option Group :=
  match g.keys.find? (fun p => p.1 == key) with
  | some p =>
      let cnt := p.2.remoteCnt + 1
      let qps := cnt.tdiv (max 1 (goRoundMinutes (now - p.2.firstGetTime)))
      if defaultMaxMinuteRemoteQPS ≤ qps then
        (g.populateHotCache key v now jitter).map (fun g2 =>
          { g2 with keys := g2.keys.eraseP (fun p2 => p2.1 == key) })
      else
        some { g with keys := bumpStats g.keys key }
  | none =>
      some { g with keys := (key, ⟨now, 1⟩) :: g.keys }

/-- `Group.getFromPeer`: RPC to the owner; on success wrap the bytes and
update the key statistics, on error return the error unchanged. -/
def Group.getFromPeer (g : Group) (peer : PeerGetter) (key : String)
    (now jitter : Int) : Option (Except String (ByteView × Group)) :=
  match peer g.name key with
  | .error e => some (.error e)
  | .ok bytes =>
      let value : ByteView := ⟨bytes⟩
      (g.updateKeyStats key value now jitter).map (fun g2 => .ok (value, g2))

/-- `Group.getLocally`: call the loader; on success defensively copy the
bytes, populate the main cache and return the value. -/
def Group.getLocally (g : Group) (key : String) (now jitter : Int) :
    Option (Except String (ByteView × Group)) :=
  match g.getter key with
  | .error e => some (.error e)
  | .ok bytes =>
      let value : ByteView := ⟨cloneBytes bytes⟩
      (g.populateCache key value now jitter).map (fun g2 => .ok (value, g2))

/-- `Group.load`, the body handed to `loader.Do(key, ...)`: if a peer picker
is registered and picks a remote owner, try the peer first and return its
value on success; on a peer error (logged in the source) or when the owner
is local, fall through to the local loader.  With no concurrent callers the
single-flight `Do` simply runs this body once and returns its result. -/
def Group.load (g : Group) (key : String) (now jitter : Int) :
    Option (Except String (ByteView × Group)) :=
  match g.peers with
  | some picker =>
      match picker key with
      | some peer =>
          match g.getFromPeer peer key now jitter with
          | some (.ok vg) => some (.ok vg)
          | some (.error _) => g.getLocally key now jitter
          | none => none
      | none => g.getLocally key now jitter
  | none => g.getLocally key now jitter

/-- `Group.Get`: reject the empty key, then hot cache, then main cache,
then the miss path (`load`). -/
def Group.Get (g : Group) (key : String) (now jitter : Int) :
    Option (Except String (ByteView × Group)) :=
  if key == "" then some (.error "key is required")
  else
    match g.hotCache.get key now with
    | (some v, hc) => some (.ok (v, { g with hotCache := hc }))
    | (none, hc) =>
        match g.mainCache.get key now with
        | (some v, mc) =>
            some (.ok (v, { g with hotCache := hc, mainCache := mc }))
        | (none, mc) =>
            Group.load { g with hotCache := hc, mainCache := mc } key now jitter

/-- The QPS-promotion test of `updateKeyStats`: a stats entry for `k`
exists and the incremented counter over the elapsed window reaches the
threshold.  `updateKeyStats` touches the hot cache exactly when this
fires. -/
def promotionFired (g : Group) (k : String) (now : Int) : Bool :=
  match g.keys.find? (fun p => p.1 == k) with
  | some p =>
      decide (defaultMaxMinuteRemoteQPS ≤
        (p.2.remoteCnt + 1).tdiv (max 1 (goRoundMinutes (now - p.2.firstGetTime))))
  | none => false

/-- The consistent-hash ring (`consistenthash.Map`).  The hash dependency is
injected, as in the source (`New`'s `nil` default, `crc32.ChecksumIEEE`, is
just one choice of it); byte slices fed to it are UTF-8 strings, so it is a
function on strings, reduced `% 2^32` for the `uint32` return type.
`hashMap` maps each virtual-node hash to its real node; a later insertion
for the same hash shadows an earlier one, so the list is consulted
front-first and insertion is at the front. -/
structure CHMap where
  hash : String → Nat
  replicas : Nat
  keys : List Nat
  hashMap : List (Nat × String)

/-- A `uint32` hash application. -/
def CHMap.hashOf (m : CHMap) (s : String) : Nat := m.hash s % 2 ^ 32

/-- `consistenthash.New(replicas, fn)`. -/
def CHMap.new (replicas : Nat) (f : String → Nat) : CHMap :=
  { hash := f, replicas := replicas, keys := [], hashMap := [] }

/-- The inner loop of `Add` for one real node `key`: for each
`i ∈ [0, replicas)` insert `H(strconv.Itoa(i) + key)` into the ring and
record the virtual-to-real mapping. -/
def CHMap.addNode (m : CHMap) (key : String) : CHMap :=
  (List.range m.replicas).foldl
    (fun acc i =>
      let h := acc.hashOf (toString i ++ key)
      { acc with keys := acc.keys ++ [h], hashMap := (h, key) :: acc.hashMap })
    m

/-- `consistenthash.Map.Add(keys...)`: insert all virtual nodes, then sort
the ring ascending (`sort.Ints`). -/
def CHMap.Add (m : CHMap) (ks : List String) : CHMap :=
  let m2 := ks.foldl CHMap.addNode m
  { m2 with keys := m2.keys.mergeSort (fun a b => a ≤ b) }

/-- The map read `m.hashMap[h]` (`""` is Go's zero value for a miss). -/
def CHMap.peerOf (m : CHMap) (h : Nat) : String :=
  match m.hashMap.find? (fun p => p.1 == h) with
  | some p => p.2
  | none => ""

/-- `consistenthash.Map.Get(key)`: empty ring yields `""`; otherwise
`sort.Search` finds the smallest ring index whose hash is `≥ H(key)` (on the
sorted ring the predicate is monotone, so the binary search computes exactly
the first satisfying index, or `len` when none is), and `idx % len` wraps
`len` around to 0. -/
def CHMap.Get (m : CHMap) (key : String) : String :=
  if m.keys.length = 0 then ""
  else
    let h := m.hashOf key
    let idx := m.keys.findIdx (fun x => decide (h ≤ x))
    m.peerOf (m.keys.getD (idx % m.keys.length) 0)

/-- A ring as built by the code: `New` followed by a sequence of `Add`s. -/
def buildRing (replicas : Nat) (f : String → Nat) (calls : List (List String)) :
    CHMap :=
  calls.foldl CHMap.Add (CHMap.new replicas f)

/-- The smallest member of `l` that is `≥ h`, when one exists. -/
def minGE (l : List Nat) (h : Nat) : Option Nat :=
  (l.filter (fun x => decide (h ≤ x))).min?

/-! ### Concrete data used by the witness theorems -/

/-- A one-byte value; together with a one-byte key it occupies 2 bytes. -/
def bv1 : ByteView := ⟨[7]⟩

/-- A concrete LRU cache: two fresh one-byte entries, 4 bytes in use. -/
def c3cache : Cache ByteView :=
  { maxBytes := 10, nbytes := 4,
    ll := [{ key := "b", value := ⟨[5]⟩, expire := 50 },
           { key := "a", value := ⟨[1]⟩, expire := 50 }],
    defaultTTL := 0 }

/-- A concrete operation sequence exercising add (insert and update), get
and removeOldest. -/
def c4ops : List (LruOp ByteView) :=
  [ .add "a" ⟨[1, 2]⟩ 100 0 3, .add "b" ⟨[7]⟩ 100 1 0, .get "a" 2,
    .removeOldest 3, .add "a" ⟨[9, 9, 9]⟩ 50 4 0 ]

/-- The cache produced by running `c4ops` from `Cache.new 10 0`. -/
def c4final : Cache ByteView :=
  { maxBytes := 10, nbytes := 6,
    ll := [{ key := "a", value := ⟨[9, 9, 9]⟩, expire := 103 },
           { key := "b", value := ⟨[7]⟩, expire := 101 }],
    defaultTTL := 0 }

/-- A trivial loader for the concrete registry and group examples. -/
def trivialGetter : Getter := fun _ => .ok []

/-- The registry after a first successful `NewGroup("users", 10, getter)`. -/
def reg1 : GroupRegistry :=
  match NewGroup "users" 10 (some trivialGetter) ([] : GroupRegistry) with
  | .ok r => r
  | .error _ => []

/-- A group holding a stats entry for `"k"` with 19 prior remote hits,
first seen at time 0. -/
def gStats : Group :=
  { name := "g", getter := trivialGetter,
    mainCache := { lru := none, cacheBytes := 800, ttl := 0 },
    hotCache := { lru := none, cacheBytes := 100, ttl := 0 },
    peers := none,
    keys := [("k", { firstGetTime := 0, remoteCnt := 19 })] }

/-- A group with an empty stats map. -/
def gFresh : Group :=
  { name := "g", getter := trivialGetter,
    mainCache := { lru := none, cacheBytes := 800, ttl := 0 },
    hotCache := { lru := none, cacheBytes := 100, ttl := 0 },
    peers := none, keys := [] }

/-- A remote peer that answers every request with the bytes `[5]`. -/
def peerOk : PeerGetter := fun _ _ => .ok [5]

/-- A remote peer whose RPC always fails. -/
def peerFail : PeerGetter := fun _ _ => .error "peer down"

/-- `gStats` with a picker that routes every key to `peerOk`. -/
def gRemote : Group := { gStats with peers := some (fun _ => some peerOk) }

/-- A group whose picker routes to a failing peer and whose loader returns
`[1, 2]`. -/
def gPeerFail : Group :=
  { name := "g", getter := fun _ => .ok [1, 2],
    mainCache := { lru := none, cacheBytes := 800, ttl := 0 },
    hotCache := { lru := none, cacheBytes := 100, ttl := 0 },
    peers := some (fun _ => some peerFail), keys := [] }

/-- The main cache of `gPeerFail` after the fallback load stored `[1, 2]`
under `"k"` at time 0. -/
def mcPeerFail : GCache :=
  { lru := some { maxBytes := 800, nbytes := 3,
                  ll := [{ key := "k", value := ⟨[1, 2]⟩, expire := 0 }],
                  defaultTTL := 0 },
    cacheBytes := 800, ttl := 0 }

/-- `gRemote` after its twentieth observed remote hit for `"k"` promoted
the value `[5]` to the hot cache and dropped the stats entry. -/
def g9after : Group :=
  { name := "g", getter := trivialGetter,
    mainCache := { lru := none, cacheBytes := 800, ttl := 0 },
    hotCache := { lru := some { maxBytes := 100, nbytes := 2,
                                ll := [{ key := "k", value := ⟨[5]⟩, expire := 0 }],
                                defaultTTL := 0 },
                  cacheBytes := 100, ttl := 0 },
    peers := some (fun _ => some peerOk), keys := [] }

/-! ### List helper lemmas -/

theorem find?_decomp {α : Type} {p : α → Bool} {l : List α} {a : α}
    (h : l.find? p = some a) :
    ∃ l₁ l₂, l = l₁ ++ a :: l₂ ∧ (∀ b ∈ l₁, p b = false) ∧ p a = true ∧
      l.eraseP p = l₁ ++ l₂ := by
  induction l with
  | nil => simp at h
  | cons x t ih =>
      by_cases hx : p x
      · rw [List.find?_cons_of_pos t hx] at h
        cases h
        exact ⟨[], t, rfl, by simp, hx, by simp [List.eraseP_cons_of_pos hx]⟩
      · rw [List.find?_cons_of_neg t hx] at h
        obtain ⟨l₁, l₂, hl, hfalse, hpa, herase⟩ := ih h
        refine ⟨x :: l₁, l₂, by simp [hl], ?_, hpa, ?_⟩
        · intro b hb
          rcases List.mem_cons.mp hb with rfl | hb
          · exact Bool.eq_false_iff.mpr hx
          · exact hfalse b hb
        · simp [List.eraseP_cons_of_neg hx, herase]

theorem sumSize_append {V : Type} [LruValue V] (l₁ l₂ : List (Entry V)) :
    sumSize (l₁ ++ l₂) = sumSize l₁ + sumSize l₂ := by
  simp [sumSize]

theorem sumSize_cons {V : Type} [LruValue V] (e : Entry V) (l : List (Entry V)) :
    sumSize (e :: l) = entrySize e + sumSize l := by
  simp [sumSize]

theorem sumSize_reverse {V : Type} [LruValue V] (l : List (Entry V)) :
    sumSize l.reverse = sumSize l := by
  simp [sumSize, List.sum_reverse]

/-! ### Byte accounting: each operation preserves `WFbytes` -/

theorem removeKey_WF {V : Type} [LruValue V] {c : Cache V} (k : String)
    (h : WFbytes c) : WFbytes (c.removeKey k) := by
  unfold Cache.removeKey
  cases hf : c.ll.find? (keyMatch k) with
  | none => exact h
  | some e =>
      obtain ⟨l₁, l₂, hl, _, _, herase⟩ := find?_decomp hf
      have hsum : sumSize c.ll = sumSize l₁ + entrySize e + sumSize l₂ := by
        rw [hl, sumSize_append, sumSize_cons]; ring
      have hsum2 : sumSize (c.ll.eraseP (keyMatch k)) = sumSize l₁ + sumSize l₂ := by
        rw [herase, sumSize_append]
      unfold WFbytes at h ⊢
      simp only [hsum2]
      omega

theorem get_WF {V : Type} [LruValue V] {c : Cache V} (k : String) (now : Int)
    (h : WFbytes c) : WFbytes (c.get k now).2 := by
  unfold Cache.get
  cases hf : c.ll.find? (keyMatch k) with
  | none => exact h
  | some e =>
      by_cases he : e.expire < now
      · simpa [he] using removeKey_WF k h
      · obtain ⟨l₁, l₂, hl, _, _, herase⟩ := find?_decomp hf
        have hsum : sumSize c.ll = sumSize l₁ + entrySize e + sumSize l₂ := by
          rw [hl, sumSize_append, sumSize_cons]; ring
        have hsum2 : sumSize (c.ll.eraseP (keyMatch k)) = sumSize l₁ + sumSize l₂ := by
          rw [herase, sumSize_append]
        unfold WFbytes at h ⊢
        simp only [he, if_false, sumSize_cons, hsum2]
        omega

theorem removeOldest_WF {V : Type} [LruValue V] {c : Cache V} (now : Int)
    (h : WFbytes c) : WFbytes (c.removeOldest now) := by
  unfold Cache.removeOldest
  cases hf : c.ll.reverse.find? (expiredB now) with
  | none => exact h
  | some e =>
      obtain ⟨l₁, l₂, hl, _, _, herase⟩ := find?_decomp hf
      have hsum : sumSize c.ll = sumSize l₁ + entrySize e + sumSize l₂ := by
        rw [← sumSize_reverse, hl, sumSize_append, sumSize_cons]; ring
      have hsum2 : sumSize (c.ll.reverse.eraseP (expiredB now)).reverse
          = sumSize l₁ + sumSize l₂ := by
        rw [sumSize_reverse, herase, sumSize_append]
      unfold WFbytes at h ⊢
      simp only [hsum2]
      omega

theorem evictLoop_WF {V : Type} [LruValue V] {now : Int} {fuel : Nat}
    {c c' : Cache V} (h : WFbytes c) (hrun : Cache.evictLoop now fuel c = some c') :
    WFbytes c' := by
  induction fuel generalizing c with
  | zero =>
      unfold Cache.evictLoop at hrun
      split at hrun
      · exact absurd hrun (by simp)
      · cases hrun; exact h
  | succ fuel ih =>
      unfold Cache.evictLoop at hrun
      split at hrun
      · split at hrun
        · exact ih (removeOldest_WF now h) hrun
        · exact absurd hrun (by simp)
      · cases hrun; exact h

theorem add_WF {V : Type} [LruValue V] {c c' : Cache V} {k : String} {v : V}
    {ttl now jitter : Int} (h : WFbytes c)
    (hrun : c.add k v ttl now jitter = some c') : WFbytes c' := by
  unfold Cache.add at hrun
  cases hf : c.ll.find? (keyMatch k) with
  | none =>
      rw [hf] at hrun
      refine evictLoop_WF ?_ hrun
      unfold WFbytes at h ⊢
      simp only [sumSize_cons, entrySize]
      omega
  | some e =>
      rw [hf] at hrun
      obtain ⟨l₁, l₂, hl, _, _, herase⟩ := find?_decomp hf
      refine evictLoop_WF ?_ hrun
      have hsum : sumSize c.ll = sumSize l₁ + entrySize e + sumSize l₂ := by
        rw [hl, sumSize_append, sumSize_cons]; ring
      have hsum2 : sumSize (c.ll.eraseP (keyMatch k)) = sumSize l₁ + sumSize l₂ := by
        rw [herase, sumSize_append]
      unfold WFbytes at h ⊢
      simp only [sumSize_cons, hsum2, entrySize] at hsum ⊢
      omega

theorem runOp_WF {V : Type} [LruValue V] {c c' : Cache V} {op : LruOp V}
    (h : WFbytes c) (hrun : runOp c op = some c') : WFbytes c' := by
  cases op with
  | get k now => cases hrun; exact get_WF k now h
  | add k v ttl now jitter => exact add_WF h hrun
  | removeOldest now => cases hrun; exact removeOldest_WF now h

theorem runOps_WF {V : Type} [LruValue V] {c c' : Cache V} {ops : List (LruOp V)}
    (h : WFbytes c) (hrun : runOps c ops = some c') : WFbytes c' := by
  induction ops generalizing c with
  | nil => cases hrun; exact h
  | cons op ops ih =>
      unfold runOps at hrun
      cases hstep : runOp c op with
      | none => rw [hstep] at hrun; exact absurd hrun (by simp)
      | some c2 => rw [hstep] at hrun; exact ih (runOp_WF h hstep) hrun

/-! ### Claim C2: `Add` of an entry larger than `max_bytes` -/

/-- Claim C2.  The claim states that for `max_bytes > 0` and an entry with
`len(k) + v.Len() > max_bytes`, `Add(k, v, ttl)` on the empty cache
terminates with the entry inserted and then immediately evicted, leaving the
cache empty.  The code does not do this: `RemoveOldest` only removes
*expired* entries, so for a not-yet-expired oversized entry the eviction
loop makes no progress and `Add` never returns (at the fixed call instant;
in real time it busy-spins until the entry's TTL has elapsed).  Here
`max_bytes = 1`, the entry `("a", one byte)` occupies 2 bytes, `ttl = 600`
seconds, `now = 0`, `jitter = 0`: the embedded `Add` reports divergence. -/
theorem lru_add_oversized_diverges :
    (Cache.new 1 0 : Cache ByteView).add "a" bv1 600 0 0 = none := by decide

/-! ### Claim C3: the three cases of `lru.Cache.Get` -/

/-- Claim C3.  For a cache whose entries have pairwise distinct keys (the
map-list bijection invariant of the source): a `Get` on a present,
non-expired key returns its stored value and moves that node to the front,
permuting and not otherwise changing the list nor `nbytes`; a `Get` on a
present but expired key returns a miss, removes exactly that node and
refunds its bytes; a `Get` on an absent key returns a miss and leaves the
cache unchanged. -/
theorem lru_get_cases {V : Type} [LruValue V] (c : Cache V) (k : String)
    (now : Int) (hnd : (c.ll.map Entry.key).Nodup) :
    (∀ e, c.lookup k = some e → ¬e.expire < now →
        (c.get k now).1 = some e.value ∧
        (c.get k now).2.ll.head? = some e ∧
        (c.get k now).2.ll.Perm c.ll ∧
        (c.get k now).2.nbytes = c.nbytes) ∧
    (∀ e, c.lookup k = some e → e.expire < now →
        (c.get k now).1 = none ∧
        (c.get k now).2.lookup k = none ∧
        (c.get k now).2.ll.length + 1 = c.ll.length ∧
        (c.get k now).2.nbytes = c.nbytes - entrySize e) ∧
    (c.lookup k = none → c.get k now = (none, c)) := by
  refine ⟨?_, ?_, ?_⟩
  · intro e hf he
    unfold Cache.lookup at hf
    obtain ⟨l₁, l₂, hl, _, _, herase⟩ := find?_decomp hf
    unfold Cache.get
    rw [hf]
    dsimp only
    rw [if_neg he]
    refine ⟨rfl, rfl, ?_, rfl⟩
    show (e :: c.ll.eraseP (keyMatch k)).Perm c.ll
    rw [herase]
    conv_rhs => rw [hl]
    exact List.perm_middle.symm
  · intro e hf he
    unfold Cache.lookup at hf
    obtain ⟨l₁, l₂, hl, hl₁, hpa, herase⟩ := find?_decomp hf
    have hek : e.key = k := by
      have hpa' := hpa
      unfold keyMatch at hpa'
      exact eq_of_beq hpa'
    unfold Cache.get Cache.removeKey
    rw [hf]
    dsimp only
    rw [if_pos he]
    refine ⟨rfl, ?_, ?_, rfl⟩
    · show Cache.lookup _ k = none
      unfold Cache.lookup
      show (c.ll.eraseP (keyMatch k)).find? (keyMatch k) = none
      rw [herase, List.find?_eq_none]
      intro x hx
      rcases List.mem_append.mp hx with hx1 | hx2
      · simpa using hl₁ x hx1
      · intro hmatch
        have hxk : x.key = k := eq_of_beq (by simpa [keyMatch] using hmatch)
        rw [hl] at hnd
        simp only [List.map_append, List.map_cons, List.nodup_append,
          List.nodup_cons] at hnd
        exact hnd.2.1.1 (hek ▸ hxk ▸ List.mem_map_of_mem Entry.key hx2)
    · show (c.ll.eraseP (keyMatch k)).length + 1 = c.ll.length
      rw [herase, hl]
      simp [List.length_append]
      omega
  · intro hf
    unfold Cache.lookup at hf
    unfold Cache.get
    rw [hf]

/-- Witness for C3: instantiated at `c3cache`, key `"a"` (present, fresh at
`now = 10`), the fresh-hit case. -/
theorem lru_get_cases_witness :
    (c3cache.get "a" 10).1 = some (⟨[1]⟩ : ByteView) ∧
    (c3cache.get "a" 10).2.ll.head? =
      some { key := "a", value := ⟨[1]⟩, expire := 50 } ∧
    (c3cache.get "a" 10).2.ll.Perm c3cache.ll ∧
    (c3cache.get "a" 10).2.nbytes = c3cache.nbytes :=
  (lru_get_cases c3cache "a" 10 (by decide)).1
    { key := "a", value := ⟨[1]⟩, expire := 50 } (by decide) (by decide)

/-! ### Claim C4: `used_bytes` always equals the sum of entry sizes -/

/-- Claim C4.  Starting from a fresh LRU cache, after any finite sequence of
`Get`, `Add` and `RemoveOldest` operations that completes, `nbytes` equals
the sum over the stored entries of `len(key) + value.Len()`.  (Every prefix
of a sequence is itself a sequence, so this covers each intermediate
state.) -/
theorem lru_used_bytes_invariant {V : Type} [LruValue V] (maxBytes ttl : Int)
    (ops : List (LruOp V)) (c' : Cache V)
    (h : runOps (Cache.new maxBytes ttl) ops = some c') :
    c'.nbytes = sumSize c'.ll :=
  runOps_WF (by simp [WFbytes, Cache.new, sumSize]) h

/-- Witness for C4: the concrete sequence `c4ops` from an empty 10-byte
cache ends in `c4final`, whose `nbytes` matches the entry-size sum. -/
theorem lru_used_bytes_invariant_witness :
    c4final.nbytes = sumSize c4final.ll :=
  lru_used_bytes_invariant 10 0 c4ops c4final (by decide)

/-! ### Claim C1: double group registration -/

/-- Claim C1 is false on the code.  After a first successful
`NewGroup("users", 10, getter)`, a second `NewGroup("users", 20, getter)`
with a non-nil getter does not panic: it returns normally (`isOk`), and it
silently replaces the registration — the main-cache budget visible under
`"users"` changes from 10 to 20.  (`NewGroup` only panics on a nil
getter.) -/
theorem newGroup_double_registration_cex :
    (NewGroup "users" 20 (some trivialGetter) reg1).isOk = true ∧
    (GetGroup reg1 "users").map (fun g => g.mainCache.cacheBytes) = some 10 ∧
    ((NewGroup "users" 20 (some trivialGetter) reg1).toOption.bind
        (fun r => (GetGroup r "users").map (fun g => g.mainCache.cacheBytes)))
      = some 20 :=
  ⟨rfl, rfl, rfl⟩

/-- Claim C1 (amended): after a first successful `NewGroup(n, b1, g1)` with
a non-nil getter, a second `NewGroup(n, b2, g2)` with a non-nil getter does
not abort: it succeeds, and it silently replaces the group registered under
`n` — afterwards the registry resolves `n` to the new group, where before
it resolved `n` to the first one. -/
theorem newGroup_second_registration_replaces
    (n : String) (b1 b2 : Int) (g1 g2 : Getter) (st st1 : GroupRegistry)
    (h1 : NewGroup n b1 (some g1) st = .ok st1) :
    NewGroup n b2 (some g2) st1 = .ok ((n, mkGroup n b2 g2) :: st1) ∧
    GetGroup ((n, mkGroup n b2 g2) :: st1) n = some (mkGroup n b2 g2) ∧
    GetGroup st1 n = some (mkGroup n b1 g1) := by
  have hst1 : st1 = (n, mkGroup n b1 g1) :: st := by
    unfold NewGroup at h1
    injection h1 with h
    exact h.symm
  refine ⟨rfl, ?_, ?_⟩
  · unfold GetGroup
    simp [List.find?]
  · rw [hst1]
    unfold GetGroup
    simp [List.find?]

/-- Witness for the amended C1 at concrete inputs. -/
theorem newGroup_second_registration_replaces_witness :
    NewGroup "users" 20 (some trivialGetter) reg1
        = .ok (("users", mkGroup "users" 20 trivialGetter) :: reg1) ∧
    GetGroup (("users", mkGroup "users" 20 trivialGetter) :: reg1) "users"
        = some (mkGroup "users" 20 trivialGetter) ∧
    GetGroup reg1 "users" = some (mkGroup "users" 10 trivialGetter) :=
  newGroup_second_registration_replaces "users" 10 20 trivialGetter trivialGetter
    [] reg1 rfl

/-! ### The QPS window formula -/

theorem goRoundMinutes_eq_round (d : Int) (hd : 0 ≤ d) :
    goRoundMinutes d = round ((d : ℚ) / 60) := by
  unfold goRoundMinutes
  rw [if_pos hd, round_eq]
  have h1 : (d : ℚ) / 60 + 1 / 2 = ((d + 30 : ℤ) : ℚ) / ((60 : ℕ) : ℚ) := by
    push_cast
    ring
  rw [h1, Rat.floor_intCast_div_natCast]
  rfl

/-! ### Frame lemmas for `updateKeyStats` -/

theorem updateKeyStats_mainCache {g g2 : Group} {k : String} {v : ByteView}
    {now jitter : Int} (h : g.updateKeyStats k v now jitter = some g2) :
    g2.mainCache = g.mainCache := by
  unfold Group.updateKeyStats at h
  cases hf : g.keys.find? (fun p => p.1 == k) with
  | none => rw [hf] at h; cases h; rfl
  | some p =>
      rw [hf] at h
      dsimp only at h
      split at h
      · unfold Group.populateHotCache at h
        cases hadd : g.hotCache.add k v now jitter with
        | none => rw [hadd] at h; simp at h
        | some hc => rw [hadd] at h; cases h; rfl
      · cases h; rfl

theorem updateKeyStats_hot_of_not_fired {g g2 : Group} {k : String}
    {v : ByteView} {now jitter : Int}
    (h : g.updateKeyStats k v now jitter = some g2)
    (hfire : promotionFired g k now = false) : g2.hotCache = g.hotCache := by
  unfold Group.updateKeyStats at h
  unfold promotionFired at hfire
  cases hf : g.keys.find? (fun p => p.1 == k) with
  | none => rw [hf] at h; cases h; rfl
  | some p =>
      rw [hf] at h hfire
      dsimp only at h hfire
      rw [if_neg (of_decide_eq_false hfire)] at h
      cases h
      rfl

/-! ### An entry just added with a non-negative TTL stays at the front -/

theorem removeOldest_head {V : Type} [LruValue V] {c : Cache V} {now : Int}
    {e : Entry V} {rest : List (Entry V)} (hll : c.ll = e :: rest)
    (hfresh : expiredB now e = false) :
    ∃ rest', (c.removeOldest now).ll = e :: rest' := by
  unfold Cache.removeOldest
  cases hf : c.ll.reverse.find? (expiredB now) with
  | none => exact ⟨rest, hll⟩
  | some x =>
      dsimp only
      rw [hll, List.reverse_cons] at hf ⊢
      cases hf2 : rest.reverse.find? (expiredB now) with
      | none =>
          rw [List.find?_append, hf2] at hf
          simp [List.find?, hfresh] at hf
      | some y =>
          have hy := List.find?_some hf2
          have hymem := List.mem_of_find?_eq_some hf2
          rw [List.eraseP_append_left hy _ hymem]
          exact ⟨(rest.reverse.eraseP (expiredB now)).reverse, by simp⟩

theorem evictLoop_head {V : Type} [LruValue V] {now : Int} {fuel : Nat}
    {c c' : Cache V} {e : Entry V} {rest : List (Entry V)}
    (hll : c.ll = e :: rest) (hfresh : expiredB now e = false)
    (hrun : Cache.evictLoop now fuel c = some c') :
    ∃ rest', c'.ll = e :: rest' := by
  induction fuel generalizing c rest with
  | zero =>
      unfold Cache.evictLoop at hrun
      split at hrun
      · simp at hrun
      · cases hrun; exact ⟨rest, hll⟩
  | succ fuel ih =>
      unfold Cache.evictLoop at hrun
      split at hrun
      · split at hrun
        · obtain ⟨rest2, h2⟩ := removeOldest_head hll hfresh
          exact ih h2 hrun
        · simp at hrun
      · cases hrun; exact ⟨rest, hll⟩

theorem add_stores_value {V : Type} [LruValue V] {c c' : Cache V}
    {k : String} {v : V} {ttl now jitter : Int}
    (hrun : c.add k v ttl now jitter = some c') (hfresh : 0 ≤ ttl + jitter) :
    c'.ll.head?.map (fun e => (e.key, e.value)) = some (k, v) := by
  unfold Cache.add at hrun
  cases hf : c.ll.find? (keyMatch k) with
  | none =>
      rw [hf] at hrun
      dsimp only at hrun
      have hfr : expiredB now
          ({ key := k, value := v, expire := now + ttl + jitter } : Entry V)
            = false := by
        simp only [expiredB, decide_eq_false_iff_not, not_lt]
        omega
      obtain ⟨rest', h'⟩ := evictLoop_head rfl hfr hrun
      rw [h']
      rfl
  | some e =>
      rw [hf] at hrun
      dsimp only at hrun
      have hfr : expiredB now
          (Entry.mk e.key v
            (if e.expire < now + ttl + jitter then now + ttl + jitter
             else e.expire) : Entry V) = false := by
        simp only [expiredB, decide_eq_false_iff_not, not_lt]
        split
        · omega
        · omega
      obtain ⟨rest', h'⟩ := evictLoop_head rfl hfr hrun
      rw [h']
      have hek : e.key = k := by
        have h1 := List.find?_some hf
        unfold keyMatch at h1
        exact eq_of_beq h1
      simp [hek]

theorem gcache_add_peek {c c' : GCache} {k : String} {v : ByteView}
    {now jitter : Int} (hrun : c.add k v now jitter = some c')
    (hfresh : 0 ≤ c.ttl + jitter) : c'.peek k = some v := by
  unfold GCache.add at hrun
  cases hc : c.lru with
  | none =>
      rw [hc] at hrun
      dsimp only at hrun
      cases hadd : (Cache.new c.cacheBytes c.ttl : Cache ByteView).add k v c.ttl now jitter with
      | none => rw [hadd] at hrun; simp at hrun
      | some l2 =>
          rw [hadd] at hrun
          cases hrun
          have hhead := add_stores_value hadd hfresh
          unfold GCache.peek
          dsimp only
          cases hll : l2.ll with
          | nil => rw [hll] at hhead; simp at hhead
          | cons e t =>
              rw [hll] at hhead
              simp at hhead
              rw [List.find?_cons_of_pos t (by simp [keyMatch, hhead.1])]
              simp [hhead.2]
  | some l =>
      rw [hc] at hrun
      dsimp only at hrun
      cases hadd : l.add k v c.ttl now jitter with
      | none => rw [hadd] at hrun; simp at hrun
      | some l2 =>
          rw [hadd] at hrun
          cases hrun
          have hhead := add_stores_value hadd hfresh
          unfold GCache.peek
          dsimp only
          cases hll : l2.ll with
          | nil => rw [hll] at hhead; simp at hhead
          | cons e t =>
              rw [hll] at hhead
              simp at hhead
              rw [List.find?_cons_of_pos t (by simp [keyMatch, hhead.1])]
              simp [hhead.2]

/-! ### Claim C7: the hot-promotion bookkeeping of `updateKeyStats` -/

/-- Claim C7.  On a successful remote fetch of `k` with value `v`: if no
stats entry for `k` exists, one is created with `firstSeen = now` and
`remoteCount = 1`; otherwise the counter is incremented and
`qps = remoteCount / max(1, round((now - firstSeen) / 60s))` (rational
rounding, truncating division) decides: below the threshold only the
counter changes, at or above it `v` is added to the hot cache and the stats
entry is deleted. -/
theorem updateKeyStats_spec (g : Group) (k : String) (v : ByteView)
    (now jitter : Int) :
    (g.keys.find? (fun p => p.1 == k) = none →
        g.updateKeyStats k v now jitter
          = some { g with keys := (k, { firstGetTime := now, remoteCnt := 1 }) :: g.keys }) ∧
    (∀ p, g.keys.find? (fun p2 => p2.1 == k) = some p →
        p.2.firstGetTime ≤ now →
        ((p.2.remoteCnt + 1).tdiv
            (max 1 (round (((now - p.2.firstGetTime : Int) : ℚ) / 60)))
              < defaultMaxMinuteRemoteQPS →
          g.updateKeyStats k v now jitter
            = some { g with keys := bumpStats g.keys k }) ∧
        (defaultMaxMinuteRemoteQPS ≤ (p.2.remoteCnt + 1).tdiv
            (max 1 (round (((now - p.2.firstGetTime : Int) : ℚ) / 60))) →
          g.updateKeyStats k v now jitter
            = (g.hotCache.add k v now jitter).map (fun hc =>
                { g with hotCache := hc,
                         keys := g.keys.eraseP (fun p2 => p2.1 == k) }))) := by
  constructor
  · intro h
    unfold Group.updateKeyStats
    rw [h]
  · intro p hf hle
    have hq : goRoundMinutes (now - p.2.firstGetTime)
        = round (((now - p.2.firstGetTime : Int) : ℚ) / 60) :=
      goRoundMinutes_eq_round _ (by omega)
    constructor
    · intro hlt
      have hlt' : (p.2.remoteCnt + 1).tdiv
          (max 1 (goRoundMinutes (now - p.2.firstGetTime)))
            < defaultMaxMinuteRemoteQPS := by rw [hq]; exact hlt
      unfold Group.updateKeyStats
      rw [hf]
      dsimp only
      rw [if_neg (not_le.mpr hlt')]
    · intro hge
      have hge' : defaultMaxMinuteRemoteQPS ≤ (p.2.remoteCnt + 1).tdiv
          (max 1 (goRoundMinutes (now - p.2.firstGetTime))) := by
        rw [hq]; exact hge
      unfold Group.updateKeyStats
      rw [hf]
      dsimp only
      rw [if_pos hge']
      unfold Group.populateHotCache
      cases g.hotCache.add k v now jitter with
      | none => rfl
      | some hc => rfl

/-- Witness for C7: `gStats` holds `("k", {firstSeen 0, remoteCnt 19})`; a
twentieth remote hit at `now = 0` gives `qps = 20 ≥ 10`, so the value goes
to the hot cache and the stats entry is dropped. -/
theorem updateKeyStats_spec_witness :
    gStats.updateKeyStats "k" ⟨[9]⟩ 0 0
      = (gStats.hotCache.add "k" ⟨[9]⟩ 0 0).map (fun hc =>
          { gStats with hotCache := hc,
                        keys := gStats.keys.eraseP (fun p2 => p2.1 == "k") }) :=
  (((updateKeyStats_spec gStats "k" ⟨[9]⟩ 0 0).2
      ("k", { firstGetTime := 0, remoteCnt := 19 }) (by decide) (by decide)).2)
    (by norm_num [round_eq, defaultMaxMinuteRemoteQPS])

/-! ### Claim C8: peer failure falls back to the local loader -/

/-- Claim C8.  When the picker routes `key` to a remote peer whose RPC
fails with any error, and the local loader then returns bytes successfully,
`load` returns those bytes with no error (the peer error is not surfaced)
and the value is stored in the main cache (whose `add` completed), where it
is visible under `key`. -/
theorem load_peer_error_falls_back (g : Group) (key : String)
    (now jitter : Int) (picker : PeerPicker) (peer : PeerGetter)
    (err : String) (bytes : List Nat) (mc : GCache)
    (hp : g.peers = some picker) (hpick : picker key = some peer)
    (hpeer : peer g.name key = .error err)
    (hload : g.getter key = .ok bytes)
    (hadd : g.mainCache.add key ⟨bytes⟩ now jitter = some mc)
    (hfresh : 0 ≤ g.mainCache.ttl + jitter) :
    g.load key now jitter = some (.ok (⟨bytes⟩, { g with mainCache := mc })) ∧
    mc.peek key = some ⟨bytes⟩ := by
  constructor
  · unfold Group.load
    rw [hp]
    dsimp only
    rw [hpick]
    dsimp only
    unfold Group.getFromPeer
    rw [hpeer]
    dsimp only
    unfold Group.getLocally
    rw [hload]
    dsimp only
    unfold cloneBytes Group.populateCache
    rw [hadd]
    simp [hp]
  · exact gcache_add_peek hadd hfresh

/-- Witness for C8: `gPeerFail`'s peer always fails and its loader returns
`[1, 2]`; at `now = 0`, `jitter = 0` the loader's value comes back with no
error and sits in the main cache. -/
theorem load_peer_error_falls_back_witness :
    gPeerFail.load "k" 0 0
        = some (.ok (⟨[1, 2]⟩, { gPeerFail with mainCache := mcPeerFail })) ∧
    mcPeerFail.peek "k" = some ⟨[1, 2]⟩ :=
  load_peer_error_falls_back gPeerFail "k" 0 0 (fun _ => some peerFail)
    peerFail "peer down" [1, 2] mcPeerFail rfl rfl rfl rfl (by decide) (by decide)

/-! ### Claim C9: a successful remote fetch leaves the main cache alone -/

/-- Claim C9.  When the picker routes `key` to a remote peer whose RPC
succeeds, `load` returns the peer's bytes and the main cache of the
resulting group is exactly the main cache of the original group — a remote
value is never written to the main cache; the hot cache can differ only
when the QPS promotion test fired. -/
theorem load_remote_success_frame (g : Group) (key : String)
    (now jitter : Int) (picker : PeerPicker) (peer : PeerGetter)
    (bytes : List Nat) (g2 : Group)
    (hp : g.peers = some picker) (hpick : picker key = some peer)
    (hpeer : peer g.name key = .ok bytes)
    (hupd : g.updateKeyStats key ⟨bytes⟩ now jitter = some g2) :
    g.load key now jitter = some (.ok (⟨bytes⟩, g2)) ∧
    g2.mainCache = g.mainCache ∧
    (g2.hotCache ≠ g.hotCache → promotionFired g key now = true) := by
  refine ⟨?_, updateKeyStats_mainCache hupd, ?_⟩
  · unfold Group.load
    rw [hp]
    dsimp only
    rw [hpick]
    dsimp only
    unfold Group.getFromPeer
    rw [hpeer]
    dsimp only
    rw [hupd]
    rfl
  · intro hne
    cases hPF : promotionFired g key now with
    | true => rfl
    | false => exact absurd (updateKeyStats_hot_of_not_fired hupd hPF) hne

/-- Witness for C9: `gRemote`'s peer answers `[5]`; the twentieth hit
promotes to the hot cache, and the main cache is untouched. -/
theorem load_remote_success_frame_witness :
    gRemote.load "k" 0 0 = some (.ok (⟨[5]⟩, g9after)) ∧
    g9after.mainCache = gRemote.mainCache ∧
    (g9after.hotCache ≠ gRemote.hotCache → promotionFired gRemote "k" 0 = true) :=
  load_remote_success_frame gRemote "k" 0 0 (fun _ => some peerOk) peerOk
    [5] g9after rfl rfl rfl rfl

/-! ### Claim C10: no promotion on the first observation of a key -/

/-- Claim C10.  A successful remote fetch of a key with no stats entry only
creates the entry (`firstSeen = now`, `remoteCount = 1`); the hot cache is
left unchanged, whatever the threshold — promotion is reachable only from
the branch where a stats entry already exists, i.e. from the second
successful remote fetch on. -/
theorem updateKeyStats_first_observation (g : Group) (k : String)
    (v : ByteView) (now jitter : Int)
    (h : g.keys.find? (fun p => p.1 == k) = none) :
    g.updateKeyStats k v now jitter
      = some { g with keys := (k, { firstGetTime := now, remoteCnt := 1 }) :: g.keys } ∧
    (g.updateKeyStats k v now jitter).map (fun g2 => g2.hotCache)
      = some g.hotCache := by
  unfold Group.updateKeyStats
  rw [h]
  exact ⟨rfl, rfl⟩

/-- Witness for C10 on `gFresh` (empty stats map). -/
theorem updateKeyStats_first_observation_witness :
    gFresh.updateKeyStats "k" ⟨[9]⟩ 5 0
      = some { gFresh with
               keys := [("k", { firstGetTime := 5, remoteCnt := 1 })] } ∧
    (gFresh.updateKeyStats "k" ⟨[9]⟩ 5 0).map (fun g2 => g2.hotCache)
      = some gFresh.hotCache :=
  updateKeyStats_first_observation gFresh "k" ⟨[9]⟩ 5 0 (by decide)

/-! ### Claim C5: consistent-hash ring lookup -/

theorem foldl_min_left (a : Nat) (ys : List Nat) (h : ∀ y ∈ ys, a ≤ y) :
    ys.foldl min a = a := by
  induction ys generalizing a with
  | nil => rfl
  | cons y ys ih =>
      rw [List.foldl_cons, min_eq_left (h y (by simp))]
      exact ih a (fun z hz => h z (by simp [hz]))

theorem sorted_findIdx_minGE (l : List Nat) (hv : Nat)
    (hs : List.Sorted (· ≤ ·) l) :
    (minGE l hv = none → l.findIdx (fun x => decide (hv ≤ x)) = l.length) ∧
    (∀ t, minGE l hv = some t →
        l.findIdx (fun x => decide (hv ≤ x)) < l.length ∧
        l.getD (l.findIdx (fun x => decide (hv ≤ x))) 0 = t) := by
  induction l with
  | nil =>
      constructor
      · intro _; rfl
      · intro t ht
        simp [minGE] at ht
  | cons a l ih =>
      have hs' := hs.of_cons
      have hal := List.rel_of_sorted_cons hs
      obtain ⟨ih1, ih2⟩ := ih hs'
      by_cases hha : hv ≤ a
      · constructor
        · intro hnone
          exfalso
          unfold minGE at hnone
          rw [List.filter_cons_of_pos (by simpa using hha)] at hnone
          simp [List.min?_cons'] at hnone
        · intro t ht
          unfold minGE at ht
          rw [List.filter_cons_of_pos (by simpa using hha)] at ht
          rw [List.min?_cons'] at ht
          have hfl : (l.filter (fun x => decide (hv ≤ x))).foldl min a = a := by
            refine foldl_min_left a _ (fun y hy => hal y ?_)
            exact List.mem_of_mem_filter hy
          rw [hfl] at ht
          have hta : a = t := Option.some_inj.mp ht
          subst hta
          have hd : (decide (hv ≤ a)) = true := by simp [hha]
          rw [List.findIdx_cons, hd]
          exact ⟨by simp, rfl⟩
      · constructor
        · intro hnone
          unfold minGE at hnone
          rw [List.filter_cons_of_neg (by simpa using hha)] at hnone
          have hd : (decide (hv ≤ a)) = false := by simp [hha]
          rw [List.findIdx_cons, hd]
          simp only [Bool.cond_false, List.length_cons, ih1 hnone]
        · intro t ht
          unfold minGE at ht
          rw [List.filter_cons_of_neg (by simpa using hha)] at ht
          obtain ⟨hlt, hgd⟩ := ih2 t ht
          have hd : (decide (hv ≤ a)) = false := by simp [hha]
          rw [List.findIdx_cons, hd]
          constructor
          · simp only [Bool.cond_false, List.length_cons]
            omega
          · simp only [Bool.cond_false, List.getD_cons_succ]
            exact hgd

theorem add_keys_sorted (m : CHMap) (ks : List String) :
    List.Sorted (· ≤ ·) (m.Add ks).keys := by
  unfold CHMap.Add
  dsimp only
  have h := @List.sorted_mergeSort Nat (fun a b : Nat => a ≤ b)
    (fun a b c hab hbc => by
      simp only [decide_eq_true_eq] at *
      omega)
    (fun a b => by
      simp only [Bool.or_eq_true, decide_eq_true_eq]
      omega)
    ((ks.foldl CHMap.addNode m).keys)
  exact h.imp (fun hab => by simpa using hab)

theorem foldl_add_sorted (cs : List (List String)) (m : CHMap)
    (h : List.Sorted (· ≤ ·) m.keys) :
    List.Sorted (· ≤ ·) (cs.foldl CHMap.Add m).keys := by
  induction cs generalizing m with
  | nil => exact h
  | cons c cs ih => exact ih _ (add_keys_sorted m c)

theorem buildRing_sorted (replicas : Nat) (f : String → Nat)
    (calls : List (List String)) :
    List.Sorted (· ≤ ·) (buildRing replicas f calls).keys := by
  unfold buildRing
  exact foldl_add_sorted calls _ (by simp [CHMap.new])

theorem find?_cons_isSome {l : List (Nat × String)} (q : Nat × String) {x : Nat}
    (h : (l.find? (fun p => p.1 == x)).isSome = true) :
    ((q :: l).find? (fun p => p.1 == x)).isSome = true := by
  by_cases hq : (q.1 == x) = true
  · rw [List.find?_cons]
    simp [hq]
  · have hq2 : (q.1 == x) = false := by simpa using hq
    rw [List.find?_cons]
    simp [hq2, h]

theorem addNode_inner_covered (key : String) (is : List Nat) (m : CHMap)
    (h : ∀ x ∈ m.keys, (m.hashMap.find? (fun p => p.1 == x)).isSome = true) :
    ∀ x ∈ (is.foldl (fun acc i =>
        { acc with keys := acc.keys ++ [acc.hashOf (toString i ++ key)],
                   hashMap := (acc.hashOf (toString i ++ key), key) :: acc.hashMap }) m).keys,
      ((is.foldl (fun acc i =>
        { acc with keys := acc.keys ++ [acc.hashOf (toString i ++ key)],
                   hashMap := (acc.hashOf (toString i ++ key), key) :: acc.hashMap }) m).hashMap.find?
          (fun p => p.1 == x)).isSome = true := by
  induction is generalizing m with
  | nil => exact h
  | cons i is ih =>
      rw [List.foldl_cons]
      apply ih
      intro x hx
      rcases List.mem_append.mp hx with hx1 | hx2
      · exact find?_cons_isSome _ (h x hx1)
      · have hxe : x = m.hashOf (toString i ++ key) := by simpa using hx2
        subst hxe
        rw [List.find?_cons_of_pos _ (by simp)]
        rfl

theorem addNode_covered (m : CHMap) (key : String)
    (h : ∀ x ∈ m.keys, (m.hashMap.find? (fun p => p.1 == x)).isSome = true) :
    ∀ x ∈ (m.addNode key).keys,
      ((m.addNode key).hashMap.find? (fun p => p.1 == x)).isSome = true := by
  unfold CHMap.addNode
  exact addNode_inner_covered key (List.range m.replicas) m h

theorem add_covered (m : CHMap) (ks : List String)
    (h : ∀ x ∈ m.keys, (m.hashMap.find? (fun p => p.1 == x)).isSome = true) :
    ∀ x ∈ (m.Add ks).keys,
      ((m.Add ks).hashMap.find? (fun p => p.1 == x)).isSome = true := by
  unfold CHMap.Add
  dsimp only
  have hfold : ∀ x ∈ (ks.foldl CHMap.addNode m).keys,
      ((ks.foldl CHMap.addNode m).hashMap.find? (fun p => p.1 == x)).isSome = true := by
    induction ks generalizing m with
    | nil => exact h
    | cons c cs ih =>
        rw [List.foldl_cons]
        exact ih _ (addNode_covered m c h)
  intro x hx
  rw [List.mem_mergeSort] at hx
  exact hfold x hx

theorem buildRing_covered (replicas : Nat) (f : String → Nat)
    (calls : List (List String)) :
    ∀ x ∈ (buildRing replicas f calls).keys,
      ((buildRing replicas f calls).hashMap.find? (fun p => p.1 == x)).isSome
        = true := by
  unfold buildRing
  have hgen : ∀ (m : CHMap),
      (∀ x ∈ m.keys, (m.hashMap.find? (fun p => p.1 == x)).isSome = true) →
      ∀ x ∈ (calls.foldl CHMap.Add m).keys,
        ((calls.foldl CHMap.Add m).hashMap.find? (fun p => p.1 == x)).isSome = true := by
    induction calls with
    | nil => intro m h; exact h
    | cons c cs ih =>
        intro m h
        rw [List.foldl_cons]
        exact ih _ (add_covered m c h)
  exact hgen _ (by simp [CHMap.new])

theorem chmap_get_spec (m : CHMap) (k : String)
    (hs : List.Sorted (· ≤ ·) m.keys)
    (hcov : ∀ x ∈ m.keys, (m.hashMap.find? (fun p => p.1 == x)).isSome = true) :
    (m.keys = [] → m.Get k = "") ∧
    (∀ t, minGE m.keys (m.hashOf k) = some t →
        m.Get k = m.peerOf t ∧
        (m.hashMap.find? (fun p => p.1 == t)).isSome = true) ∧
    (m.keys ≠ [] → minGE m.keys (m.hashOf k) = none →
        m.Get k = m.peerOf (m.keys.getD 0 0)) := by
  obtain ⟨hnone, hsome⟩ := sorted_findIdx_minGE m.keys (m.hashOf k) hs
  refine ⟨?_, ?_, ?_⟩
  · intro hk
    unfold CHMap.Get
    rw [if_pos (by simp [hk])]
  · intro t ht
    obtain ⟨hidx, hgd⟩ := hsome t ht
    have htmem : t ∈ m.keys := by
      unfold minGE at ht
      have h2 := List.min?_eq_some_iff'.mp ht
      exact List.mem_of_mem_filter h2.1
    have hlen : m.keys.length ≠ 0 := by
      intro h0
      rw [List.length_eq_zero] at h0
      simp [h0] at htmem
    constructor
    · unfold CHMap.Get
      rw [if_neg hlen]
      dsimp only
      rw [Nat.mod_eq_of_lt hidx, hgd]
    · exact hcov t htmem
  · intro hne hnone'
    have hidx := hnone hnone'
    have hlen : m.keys.length ≠ 0 := by
      intro h0
      rw [List.length_eq_zero] at h0
      exact hne h0
    unfold CHMap.Get
    rw [if_neg hlen]
    dsimp only
    rw [hidx, Nat.mod_self]

/-- Claim C5.  For a ring built by `New(replicas, f)` followed by any
sequence of `Add` calls: if the ring holds no virtual nodes, `Get(k)`
returns `""`; otherwise, when some virtual-node hash is `≥ H(k)`, `Get(k)`
returns the peer that the ring maps the smallest such hash to (and that
mapping is present in `hashMap`); when no virtual-node hash is `≥ H(k)` it
wraps around and returns the peer of the ring entry at index 0. -/
theorem consistenthash_get_spec (replicas : Nat) (f : String → Nat)
    (calls : List (List String)) (k : String) (m : CHMap)
    (hm : m = buildRing replicas f calls) :
    (m.keys = [] → m.Get k = "") ∧
    (∀ t, minGE m.keys (m.hashOf k) = some t →
        m.Get k = m.peerOf t ∧
        (m.hashMap.find? (fun p => p.1 == t)).isSome = true) ∧
    (m.keys ≠ [] → minGE m.keys (m.hashOf k) = none →
        m.Get k = m.peerOf (m.keys.getD 0 0)) := by
  subst hm
  exact chmap_get_spec _ k (buildRing_sorted replicas f calls)
    (buildRing_covered replicas f calls)

/-- Witness for C5: ring built with `replicas = 1`, hash = string length,
peers `"A"` (virtual hash 2) and `"BB"` (virtual hash 3); for `"xyz"`
(hash 3) the smallest ring hash `≥ 3` is 3 and its peer is returned. -/
theorem consistenthash_get_spec_witness :
    (buildRing 1 String.length [["A", "BB"]]).Get "xyz"
        = (buildRing 1 String.length [["A", "BB"]]).peerOf 3 ∧
    ((buildRing 1 String.length [["A", "BB"]]).hashMap.find?
        (fun p => p.1 == 3)).isSome = true := by
  refine ((consistenthash_get_spec 1 String.length [["A", "BB"]] "xyz"
      (buildRing 1 String.length [["A", "BB"]]) rfl).2.1) 3 ?_
  have hkeys : (buildRing 1 String.length [["A", "BB"]]).keys = [2, 3] := by
    have h2 : (buildRing 1 String.length [["A", "BB"]]).keys
        = List.mergeSort [2, 3] (fun a b => a ≤ b) := rfl
    rw [h2, List.mergeSort_of_sorted (by decide)]
  rw [hkeys]
  decide

end Geecache

